import Mathlib

/-!
Shallow embedding of the UPI QR-code handling program (ADMIN1301/QRcode):
the codec in src/qr_handler.py (class UPIQRHandler) and its web-layer
counterpart in src/app.py, together with the library functions from
urllib.parse that they call (quote, unquote, urlsplit, parse_qs).

Python strings are modelled as lists of unicode characters; bytes are
natural numbers below 256; Python dicts (insertion ordered, unique keys)
are association lists built only through the insert operation modelled by
dictInsert / qsInsert below.
-/

namespace UPI

abbrev Str := List Char

instance {ε α : Type} [DecidableEq ε] [DecidableEq α] : DecidableEq (Except ε α) := fun a b =>
  match a, b with
  | .error x, .error y =>
    if h : x = y then .isTrue (congrArg Except.error h)
    else .isFalse fun hh => h (Except.error.inj hh)
  | .ok x, .ok y =>
    if h : x = y then .isTrue (congrArg Except.ok h)
    else .isFalse fun hh => h (Except.ok.inj hh)
  | .error _, .ok _ => .isFalse fun hh => Except.noConfusion hh
  | .ok _, .error _ => .isFalse fun hh => Except.noConfusion hh

/-- Python str.startswith restricted to the use sites of the program. -/
def strStarts : Str → Str → Bool
  | [], _ => true
  | _ :: _, [] => false
  | p :: ps, c :: cs => p == c && strStarts ps cs

/-- the scheme text upi:// -/
def schemeHead : Str := ['u', 'p', 'i', ':', '/', '/']

/-- the serializer head upi://pay? -/
def payHead : Str := ['u', 'p', 'i', ':', '/', '/', 'p', 'a', 'y', '?']

/-- concat-map over lists -/
def cmap (f : α → List β) : List α → List β
  | [] => []
  | a :: l => f a ++ cmap f l

/-- uppercase hex digit of n < 16, as produced by urllib.parse.quote -/
def hexUpper (n : Nat) : Char :=
  if n < 10 then Char.ofNat (48 + n) else Char.ofNat (55 + n)

/-- The characters urllib.parse.quote passes through: ALWAYS_SAFE
    (ASCII letters, digits, underscore 95, dot 46, dash 45, tilde 126)
    together with the default safe character slash 47. -/
def quoteSafe (c : Char) : Bool :=
  (65 ≤ c.toNat && c.toNat ≤ 90) || (97 ≤ c.toNat && c.toNat ≤ 122) ||
  (48 ≤ c.toNat && c.toNat ≤ 57) || c.toNat == 95 || c.toNat == 46 ||
  c.toNat == 45 || c.toNat == 126 || c.toNat == 47

/-- UTF-8 encoding of one character (str.encode, used inside quote). -/
def utf8EncodeChar (c : Char) : List Nat :=
  if c.toNat < 128 then [c.toNat]
  else if c.toNat < 2048 then [192 + c.toNat / 64, 128 + c.toNat % 64]
  else if c.toNat < 65536 then
    [224 + c.toNat / 4096, 128 + c.toNat / 64 % 64, 128 + c.toNat % 64]
  else
    [240 + c.toNat / 262144, 128 + c.toNat / 4096 % 64, 128 + c.toNat / 64 % 64,
     128 + c.toNat % 64]

/-- one byte rendered as a percent escape with two uppercase hex digits -/
def pctEscape (b : Nat) : List Char := ['%', hexUpper (b / 16), hexUpper (b % 16)]

/-- urllib.parse.quote on one character: safe characters pass through,
    any other character becomes the percent escapes of its UTF-8 bytes. -/
def quoteChar (c : Char) : List Char :=
  if quoteSafe c then [c] else cmap pctEscape (utf8EncodeChar c)

/-- urllib.parse.quote(value) with the default safe characters, as called by
    create_upi_string (qr_handler.py line 135, app.py line 100). -/
def quote (s : Str) : Str := cmap quoteChar s

/-- hex digits accepted by percent decoding (both cases) -/
def isHexDigit (c : Char) : Bool :=
  (48 ≤ c.toNat && c.toNat ≤ 57) || (65 ≤ c.toNat && c.toNat ≤ 70) ||
  (97 ≤ c.toNat && c.toNat ≤ 102)

def hexVal (c : Char) : Nat :=
  if 48 ≤ c.toNat && c.toNat ≤ 57 then c.toNat - 48
  else if 65 ≤ c.toNat && c.toNat ≤ 70 then c.toNat - 55
  else c.toNat - 87

/-- urllib.parse.unquote_to_bytes on a run of ASCII characters, with fuel for
    termination (each step consumes at least one character, so fuel equal to
    the length of the input always suffices and the fuel-exhausted case is
    unreachable from pctBytes): a percent sign followed by two hex digits
    becomes one byte, every other character contributes its code point as a
    byte. -/
def pctBytesF : Nat → List Char → List Nat
  | _, [] => []
  | 0, _ :: _ => []
  | fuel + 1, c :: rest =>
    if c == '%' then
      match rest with
      | h :: l :: rest2 =>
        if isHexDigit h && isHexDigit l then (hexVal h * 16 + hexVal l) :: pctBytesF fuel rest2
        else c.toNat :: pctBytesF fuel rest
      | _ => c.toNat :: pctBytesF fuel rest
    else c.toNat :: pctBytesF fuel rest

def pctBytes (s : List Char) : List Nat := pctBytesF s.length s

/-- U+FFFD, emitted by bytes.decode('utf-8', 'replace') on malformed input -/
def repl : Char := Char.ofNat 65533

/-- UTF-8 decoding of a byte sequence with replacement on error, as performed
    by bytes.decode('utf-8', 'replace') inside urllib.parse.unquote.  Overlong
    encodings, surrogate code points and out-of-range lead bytes are rejected as
    in CPython; on malformed input the exact number of replacement characters
    can differ from CPython, and no statement below depends on malformed
    sequences. -/
def utf8DecodeBytesF : Nat → List Nat → List Char
  | _, [] => []
  | 0, _ :: _ => []
  | fuel + 1, b0 :: rest =>
    if b0 < 128 then Char.ofNat b0 :: utf8DecodeBytesF fuel rest
    else if 194 ≤ b0 ∧ b0 < 224 then
      match rest with
      | b1 :: rest2 =>
        if 128 ≤ b1 ∧ b1 < 192 then
          Char.ofNat ((b0 - 192) * 64 + (b1 - 128)) :: utf8DecodeBytesF fuel rest2
        else repl :: utf8DecodeBytesF fuel rest
      | [] => [repl]
    else if 224 ≤ b0 ∧ b0 < 240 then
      match rest with
      | b1 :: b2 :: rest2 =>
        if (128 ≤ b1 ∧ b1 < 192) ∧ (128 ≤ b2 ∧ b2 < 192) ∧
            (b0 = 224 → 160 ≤ b1) ∧ (b0 = 237 → b1 < 160) then
          Char.ofNat ((b0 - 224) * 4096 + (b1 - 128) * 64 + (b2 - 128)) ::
            utf8DecodeBytesF fuel rest2
        else repl :: utf8DecodeBytesF fuel rest
      | _ => repl :: utf8DecodeBytesF fuel rest
    else if 240 ≤ b0 ∧ b0 < 245 then
      match rest with
      | b1 :: b2 :: b3 :: rest2 =>
        if (128 ≤ b1 ∧ b1 < 192) ∧ (128 ≤ b2 ∧ b2 < 192) ∧ (128 ≤ b3 ∧ b3 < 192) ∧
            (b0 = 240 → 144 ≤ b1) ∧ (b0 = 244 → b1 < 144) then
          Char.ofNat ((b0 - 240) * 262144 + (b1 - 128) * 4096 + (b2 - 128) * 64 +
              (b3 - 128)) :: utf8DecodeBytesF fuel rest2
        else repl :: utf8DecodeBytesF fuel rest
      | _ => repl :: utf8DecodeBytesF fuel rest
    else repl :: utf8DecodeBytesF fuel rest

def utf8DecodeBytes (bs : List Nat) : List Char := utf8DecodeBytesF bs.length bs

/-- urllib.parse.unquote processed run by run, with fuel for termination
    (fuel is always the length of the string, which suffices: each step
    consumes at least one character).  CPython splits the string into maximal
    runs of characters below 0x80, percent-decodes each such run to bytes and
    UTF-8 decodes it with errors='replace'; characters at 0x80 and above pass
    through unchanged. -/
def unquoteF : Nat → List Char → List Char
  | _, [] => []
  | 0, c :: rest => c :: rest
  | fuel + 1, c :: rest =>
    if c.toNat < 128 then
      utf8DecodeBytes (pctBytes (c :: rest.takeWhile fun d => d.toNat < 128)) ++
        unquoteF fuel (rest.dropWhile fun d => d.toNat < 128)
    else c :: unquoteF fuel rest

/-- urllib.parse.unquote(text, encoding='utf-8', errors='replace'), the value
    decoding used by urllib.parse.parse_qsl. -/
def unquote (s : Str) : Str := unquoteF s.length s

/-- the plus-to-space replacement parse_qsl applies before unquoting -/
def plusToSpace (s : Str) : Str := s.map fun c => if c == '+' then ' ' else c

/-- full decoding of one name or value as done inside parse_qsl -/
def qslDecode (t : Str) : Str := unquote (plusToSpace t)

/-- Python str.split(sep) for a one-character separator (returns at least
    one piece; splitting the empty string yields one empty piece). -/
def splitOnChar (sep : Char) : List Char → List (List Char)
  | [] => [[]]
  | c :: rest =>
    if c == sep then [] :: splitOnChar sep rest
    else
      match splitOnChar sep rest with
      | h :: t => (c :: h) :: t
      | [] => [[c]]

/-- split at the first occurrence of sep; none when sep does not occur
    (used for the name=value split inside parse_qsl). -/
def splitFirst (sep : Char) : List Char → Option (List Char × List Char)
  | [] => none
  | c :: rest =>
    if c == sep then some ([], rest)
    else (splitFirst sep rest).map fun p => (c :: p.1, p.2)

/-- processing of one name=value field by urllib.parse.parse_qsl with its
    default arguments (keep_blank_values=False, strict_parsing=False): an
    empty field, a field without an equals sign and a field whose raw value is
    empty are all silently dropped; a kept name and value are decoded with
    plus-to-space followed by unquote. -/
def qslPair (nv : Str) : Option (Str × Str) :=
  match splitFirst '=' nv with
  | none => none
  | some p => if p.2 = [] then none else some (qslDecode p.1, qslDecode p.2)

/-- urllib.parse.parse_qsl with its default arguments (separator='&') -/
def parse_qsl (qs : Str) : List (Str × Str) :=
  (splitOnChar '&' qs).filterMap qslPair

/-- does the association list have an entry with this key -/
def hasKeyQ (d : List (Str × List Str)) (k : Str) : Bool :=
  d.any fun e => e.1 == k

/-- one step of the dict building loop of urllib.parse.parse_qs: append the
    value to an existing entry in place, otherwise add a new entry at the end. -/
def qsInsert (d : List (Str × List Str)) (k : Str) (v : Str) : List (Str × List Str) :=
  if hasKeyQ d k then d.map fun e => if e.1 == k then (e.1, e.2 ++ [v]) else e
  else d ++ [(k, [v])]

/-- urllib.parse.parse_qs: a dict from names to the list of all their values,
    names in first-occurrence order, values in occurrence order. -/
def parse_qs (qs : Str) : List (Str × List Str) :=
  (parse_qsl qs).foldl (fun d kv => qsInsert d kv.1 kv.2) []

def hasKey (d : List (Str × Str)) (k : Str) : Bool :=
  d.any fun e => e.1 == k

/-- assignment d[k] = v on a Python dict: overwrite in place when the key is
    present, otherwise append a new entry. -/
def dictInsert (d : List (Str × Str)) (k v : Str) : List (Str × Str) :=
  if hasKey d k then d.map fun e => if e.1 == k then (e.1, v) else e
  else d ++ [(k, v)]

/-- lookup in a record (Python d.get(k) / d[k]) -/
def lookupRec : List (Str × Str) → Str → Option Str
  | [], _ => none
  | e :: d, k => if e.1 == k then some e.2 else lookupRec d k

/-- lookup in a parse_qs result -/
def lookupQ : List (Str × List Str) → Str → Option (List Str)
  | [], _ => none
  | e :: d, k => if e.1 == k then some e.2 else lookupQ d k

/-- all values carried by a key in a pair list, in order of occurrence -/
def valuesOf (k : Str) (prs : List (Str × Str)) : List Str :=
  (prs.filter fun p => p.1 == k).map Prod.snd

/-- d.update(m) on Python dicts (qr_handler.py line 208) -/
def pyUpdate (d m : List (Str × Str)) : List (Str × Str) :=
  m.foldl (fun d kv => dictInsert d kv.1 kv.2) d

/-- characters removed by urlsplit before any parsing (tab, CR, LF) -/
def stripCtl (s : Str) : Str :=
  s.filter fun c => c.toNat != 9 && c.toNat != 13 && c.toNat != 10

/-- a character that ends the netloc segment in urlsplit -/
def notNetlocEnd (c : Char) : Bool := c != '/' && c != '?' && c != '#'

/-- the part after the first occurrence of sep ([] when sep is absent) -/
def afterFirst (sep : Char) : List Char → List Char
  | [] => []
  | c :: rest => if c == sep then rest else afterFirst sep rest

/-- membership test for one character -/
def hasChar (s : Str) (c : Char) : Bool := s.any fun d => d == c

/-- The query component of urllib.parse.urlsplit(s) for an input that starts
    with the scheme text upi:// (the only inputs on which the program calls
    it): tab, CR and LF are removed everywhere, the netloc is the text after
    the double slash up to the first slash, question mark or hash, a ValueError
    (Invalid IPv6 URL) is raised when the netloc contains a bracket of one kind
    only, the fragment is everything after the first hash of the remainder and
    the query is everything after the first question mark of what is left.
    The bracketed-host content validation and the netloc NFKC check of newer
    CPython versions raise only for bracketed or non-ASCII netlocs and are not
    modelled; every netloc considered in the statements below is bracket-free
    ASCII. -/
def urlsplitQueryUpi (s : Str) : Except Str Str :=
  let u := stripCtl s
  let t := u.drop 6
  let netloc := t.takeWhile notNetlocEnd
  let rest := t.dropWhile notNetlocEnd
  if hasChar netloc '[' != hasChar netloc ']' then
    .error ['I', 'n', 'v', 'a', 'l', 'i', 'd', ' ', 'I', 'P', 'v', '6', ' ', 'U', 'R', 'L']
  else
    .ok (afterFirst '?' (rest.takeWhile fun c => c != '#'))

/- the nine semantic field names and the nine short protocol keys -/

def kPayeeAddress : Str := ['p', 'a', 'y', 'e', 'e', '_', 'a', 'd', 'd', 'r', 'e', 's', 's']
def kPayeeName : Str := ['p', 'a', 'y', 'e', 'e', '_', 'n', 'a', 'm', 'e']
def kAmount : Str := ['a', 'm', 'o', 'u', 'n', 't']
def kCurrency : Str := ['c', 'u', 'r', 'r', 'e', 'n', 'c', 'y']
def kTransactionNote : Str := ['t', 'r', 'a', 'n', 's', 'a', 'c', 't', 'i', 'o', 'n', '_', 'n', 'o', 't', 'e']
def kTransactionRef : Str := ['t', 'r', 'a', 'n', 's', 'a', 'c', 't', 'i', 'o', 'n', '_', 'r', 'e', 'f']
def kMerchantCode : Str := ['m', 'e', 'r', 'c', 'h', 'a', 'n', 't', '_', 'c', 'o', 'd', 'e']
def kTransactionId : Str := ['t', 'r', 'a', 'n', 's', 'a', 'c', 't', 'i', 'o', 'n', '_', 'i', 'd']
def kUrl : Str := ['u', 'r', 'l']

def sPa : Str := ['p', 'a']
def sPn : Str := ['p', 'n']
def sAm : Str := ['a', 'm']
def sCu : Str := ['c', 'u']
def sTn : Str := ['t', 'n']
def sTr : Str := ['t', 'r']
def sMc : Str := ['m', 'c']
def sTid : Str := ['t', 'i', 'd']
def sUrl : Str := ['u', 'r', 'l']

/-- the nine recognized semantic field names -/
def semanticNames : List Str :=
  [kPayeeAddress, kPayeeName, kAmount, kCurrency, kTransactionNote,
   kTransactionRef, kMerchantCode, kTransactionId, kUrl]

/-- param_mapping.get(key, key) of parse_upi_string: short protocol key to
    semantic field name, unknown keys pass through. -/
def toSemanticName (k : Str) : Str :=
  if k = sPa then kPayeeAddress
  else if k = sPn then kPayeeName
  else if k = sAm then kAmount
  else if k = sCu then kCurrency
  else if k = sTn then kTransactionNote
  else if k = sTr then kTransactionRef
  else if k = sMc then kMerchantCode
  else if k = sTid then kTransactionId
  else if k = sUrl then kUrl
  else k

/-- param_mapping.get(key, key) of create_upi_string: semantic field name to
    short protocol key, unknown keys pass through. -/
def toShortKey (k : Str) : Str :=
  if k = kPayeeAddress then sPa
  else if k = kPayeeName then sPn
  else if k = kAmount then sAm
  else if k = kCurrency then sCu
  else if k = kTransactionNote then sTn
  else if k = kTransactionRef then sTr
  else if k = kMerchantCode then sMc
  else if k = kTransactionId then sTid
  else if k = kUrl then sUrl
  else k

/-- the record built by the extraction loop of parse_upi_string from a query
    string: map each name through toSemanticName and assign value[0] (parse_qs
    value lists are always non-empty, so the headD default is never used). -/
def recordOfQuery (q : Str) : List (Str × Str) :=
  (parse_qs q).foldl (fun d e => dictInsert d (toSemanticName e.1) (e.2.headD [])) []

/-- one key=value piece of the serialized query (values are quoted, keys are
    mapped to short keys and emitted verbatim) -/
def queryPart (kv : Str × Str) : Str := toShortKey kv.1 ++ '=' :: quote kv.2

/-- Python '&'.join -/
def joinAmp : List (List Char) → List Char
  | [] => []
  | [p] => p
  | p :: q :: rest => p ++ '&' :: joinAmp (q :: rest)

namespace QRHandler

/-- UPIQRHandler.parse_upi_string (qr_handler.py lines 54-106), return value.
    The scheme check runs first; a ValueError raised by urlparse is caught by
    the surrounding except block, which returns the parameters accumulated so
    far — the accumulation loop runs after urlparse, so that is the empty
    dict. -/
def parse_upi_string (s : Str) : List (Str × Str) :=
  if strStarts schemeHead s then
    match urlsplitQueryUpi s with
    | .error _ => []
    | .ok q => recordOfQuery q
  else []

/-- parse_upi_string with the instance state made explicit: the first
    component is the returned dict, the second the field self.upi_data after
    the call (line 95 assigns the parsed record to it on the successful path
    only; the early return and the except path leave it unchanged). -/
def parse_upi_string_st (s : Str) (upi_data : List (Str × Str)) :
    List (Str × Str) × List (Str × Str) :=
  if strStarts schemeHead s then
    match urlsplitQueryUpi s with
    | .error _ => ([], upi_data)
    | .ok q => (recordOfQuery q, recordOfQuery q)
  else ([], upi_data)

/-- UPIQRHandler.create_upi_string (qr_handler.py lines 108-141): every item
    of the dict is emitted, str(value) is the identity on the string values
    considered here, values are quoted, parts joined with ampersands after the
    fixed head upi://pay? . -/
def create_upi_string (r : List (Str × Str)) : Str :=
  payHead ++ joinAmp (r.map queryPart)

/-- outcome of decode_and_encode: either the early False return, or a call of
    encode_qr with the given payload (the optical encoder is an external
    collaborator; its success writes the output image). -/
inductive PipeOut where
  | failed
  | encoded (data : Str)
deriving DecidableEq

/-- UPIQRHandler.decode_and_encode (qr_handler.py lines 183-219), with the
    optical decode step abstracted as its result (none models a failed decode;
    Python truthiness also sends the empty decoded string to the False
    branch).  A upi:// payload is parsed, updated in place with modify_params
    when that dict is non-empty, and re-serialized; any other payload is
    re-encoded unchanged. -/
def decode_and_encode (decoded : Option Str) (modify_params : List (Str × Str)) : PipeOut :=
  match decoded with
  | none => .failed
  | some d =>
    if d = [] then .failed
    else if strStarts schemeHead d then
      let upi_params := parse_upi_string d
      let merged := if modify_params ≠ [] then pyUpdate upi_params modify_params
                    else upi_params
      .encoded (create_upi_string merged)
    else .encoded d

end QRHandler

namespace App

/-- parse_upi_string (app.py lines 50-79): returns (None, message) for inputs
    without the scheme text and (None, str(e)) when urlparse raises; otherwise
    the extracted record.  Modelled as an Except with the error message. -/
def parse_upi_string (s : Str) : Except Str (List (Str × Str)) :=
  if strStarts schemeHead s then
    match urlsplitQueryUpi s with
    | .error e => .error e
    | .ok q => .ok (recordOfQuery q)
  else
    .error ['N', 'o', 't', ' ', 'a', ' ', 'U', 'P', 'I', ' ', 'p', 'a', 'y', 'm',
            'e', 'n', 't', ' ', 's', 't', 'r', 'i', 'n', 'g']

/-- create_upi_string (app.py lines 82-103): identical to the handler version
    except that falsy (empty) values are skipped. -/
def create_upi_string (r : List (Str × Str)) : Str :=
  payHead ++ joinAmp ((r.filter fun kv => !kv.2.isEmpty).map queryPart)

/-- the modification loop of the modify route (app.py lines 240-243): an
    override is applied only when its key is not the literal file and its
    value is truthy (non-empty). -/
def applyMods (upi_params mods : List (Str × Str)) : List (Str × Str) :=
  mods.foldl
    (fun d kv => if kv.1 ≠ ['f', 'i', 'l', 'e'] ∧ kv.2 ≠ [] then dictInsert d kv.1 kv.2 else d)
    upi_params

/-- the modify route (app.py lines 211-263) from the point where the optical
    decode has produced qr_data: refuse non-scheme payloads, parse, apply the
    overrides, serialize.  The ok value carries the merged record and the new
    UPI string handed to the QR generator; errors are the 400 responses. -/
def modify (qr_data : Str) (mods : List (Str × Str)) :
    Except Str (List (Str × Str) × Str) :=
  if ¬ strStarts schemeHead qr_data then
    .error ['N', 'o', 't', ' ', 'a', ' ', 'U', 'P', 'I', ' ', 'Q', 'R', ' ', 'c', 'o', 'd', 'e']
  else
    match parse_upi_string qr_data with
    | .error e => .error e
    | .ok upi_params =>
      let merged := applyMods upi_params mods
      .ok (merged, create_upi_string merged)

end App

/-- does a serialized query contain a key=value piece with an empty value -/
def noEmptyPair (qs : Str) : Bool :=
  (splitOnChar '&' qs).all fun seg =>
    match splitFirst '=' seg with
    | some p => !p.2.isEmpty
    | none => true

/-! ### Helper lemmas: characters, UTF-8, quoting, percent decoding -/

theorem char_toNat_valid (c : Char) : Nat.isValidChar c.toNat := c.valid

theorem charValidBounds (c : Char) :
    c.toNat < 55296 ∨ (57344 ≤ c.toNat ∧ c.toNat < 1114112) := by
  have h := char_toNat_valid c
  unfold Nat.isValidChar at h
  exact h

theorem utf8EncodeChar_lt256 (c : Char) : ∀ b ∈ utf8EncodeChar c, b < 256 := by
  have hv := charValidBounds c
  intro b hb
  unfold utf8EncodeChar at hb
  split_ifs at hb with h1 h2 h3
  · simp only [List.mem_singleton] at hb; omega
  · simp only [List.mem_cons, List.not_mem_nil, or_false] at hb
    rcases hb with rfl | rfl <;> omega
  · simp only [List.mem_cons, List.not_mem_nil, or_false] at hb
    rcases hb with rfl | rfl | rfl <;> omega
  · simp only [List.mem_cons, List.not_mem_nil, or_false] at hb
    rcases hb with rfl | rfl | rfl | rfl <;> omega

theorem hexUpperFacts : ∀ n, n < 16 →
    (hexUpper n).toNat < 128 ∧ isHexDigit (hexUpper n) = true ∧
    hexVal (hexUpper n) = n ∧ quoteSafe (hexUpper n) = true := by decide

theorem quoteSafe_toNat {c : Char} (h : quoteSafe c = true) :
    c.toNat < 128 ∧ c.toNat ≠ 37 ∧ c.toNat ≠ 38 ∧ c.toNat ≠ 61 ∧ c.toNat ≠ 63 ∧
    c.toNat ≠ 35 ∧ c.toNat ≠ 32 ∧ c.toNat ≠ 43 ∧ c.toNat ≠ 9 ∧ c.toNat ≠ 13 ∧
    c.toNat ≠ 10 ∧ c.toNat ≠ 91 ∧ c.toNat ≠ 93 := by
  simp only [quoteSafe, Bool.or_eq_true, Bool.and_eq_true, decide_eq_true_eq,
    beq_iff_eq] at h
  omega

theorem quote_cons (c : Char) (s : Str) : quote (c :: s) = quoteChar c ++ quote s := rfl

theorem mem_cmap {f : α → List β} {c : β} :
    ∀ {l : List α}, c ∈ cmap f l ↔ ∃ a ∈ l, c ∈ f a := by
  intro l
  induction l with
  | nil => simp [cmap]
  | cons a l ih => simp [cmap, ih]

theorem mem_quote {s : Str} {c : Char} (h : c ∈ quote s) :
    quoteSafe c = true ∨ c = '%' := by
  induction s with
  | nil => simp [quote, cmap] at h
  | cons a s ih =>
    rw [quote_cons] at h
    rcases List.mem_append.mp h with h | h
    · unfold quoteChar at h
      split_ifs at h with hs
      · simp only [List.mem_singleton] at h
        subst h
        exact Or.inl hs
      · obtain ⟨b, hb, hc⟩ := mem_cmap.mp h
        have hb256 := utf8EncodeChar_lt256 a b hb
        simp only [pctEscape, List.mem_cons, List.not_mem_nil, or_false] at hc
        rcases hc with rfl | rfl | rfl
        · exact Or.inr rfl
        · exact Or.inl (hexUpperFacts _ (by omega)).2.2.2
        · exact Or.inl (hexUpperFacts _ (by omega)).2.2.2
    · exact ih h

/-- every character emitted by quote is ASCII and is none of the characters
    that the query parsing pipeline treats specially -/
theorem mem_quote_toNat {s : Str} {c : Char} (h : c ∈ quote s) :
    c.toNat < 128 ∧ c.toNat ≠ 38 ∧ c.toNat ≠ 61 ∧ c.toNat ≠ 63 ∧ c.toNat ≠ 35 ∧
    c.toNat ≠ 32 ∧ c.toNat ≠ 43 ∧ c.toNat ≠ 9 ∧ c.toNat ≠ 13 ∧ c.toNat ≠ 10 ∧
    c.toNat ≠ 91 ∧ c.toNat ≠ 93 := by
  rcases mem_quote h with hs | rfl
  · have := quoteSafe_toNat hs
    omega
  · decide

/-! fuel irrelevance: pctBytesF and utf8DecodeBytesF do not depend on the fuel
    as long as it is at least the length of the input, so the wrappers
    pctBytes and utf8DecodeBytes satisfy the natural unfolding equations -/

theorem pctBytesF_irrel :
    ∀ f1 (s : List Char) f2, s.length ≤ f1 → s.length ≤ f2 →
      pctBytesF f1 s = pctBytesF f2 s := by
  intro f1
  induction f1 with
  | zero =>
    intro s f2 h1 _
    have hs : s = [] := List.length_eq_zero.mp (Nat.le_zero.mp h1)
    subst hs
    cases f2 <;> rfl
  | succ g ih =>
    intro s f2 h1 h2
    cases s with
    | nil => cases f2 <;> rfl
    | cons c rest =>
      cases f2 with
      | zero => simp at h2
      | succ g2 =>
        simp at h1 h2
        rcases rest with _ | ⟨h, _ | ⟨l, rest2⟩⟩ <;> simp only [pctBytesF]
        · cases hc : c == '%' <;>
            exact congrArg (List.cons c.toNat) (ih [h] g2 (by simpa using h1) (by simpa using h2))
        · cases hc : c == '%'
          · exact congrArg (List.cons c.toNat) (ih (h :: l :: rest2) g2 h1 h2)
          · cases hx : isHexDigit h && isHexDigit l
            · exact congrArg (List.cons c.toNat) (ih (h :: l :: rest2) g2 h1 h2)
            · exact congrArg (List.cons (hexVal h * 16 + hexVal l))
                (ih rest2 g2 (by simp at h1; omega) (by simp at h2; omega))

theorem pctBytes_nil : pctBytes [] = [] := rfl

theorem pctBytes_cons_safe {c : Char} (hc : c ≠ '%') (rest : List Char) :
    pctBytes (c :: rest) = c.toNat :: pctBytes rest := by
  have hb : (c == '%') = false := by simp [hc]
  simp only [pctBytes, List.length_cons, pctBytesF, hb, Bool.false_eq_true, if_false]

theorem pctBytes_escape {h l : Char} (hh : isHexDigit h = true) (hl : isHexDigit l = true)
    (rest2 : List Char) :
    pctBytes ('%' :: h :: l :: rest2) = (hexVal h * 16 + hexVal l) :: pctBytes rest2 := by
  simp only [pctBytes, List.length_cons, pctBytesF, hh, hl, Bool.and_self, if_true,
    beq_self_eq_true]
  rw [pctBytesF_irrel (rest2.length + 2) rest2 rest2.length (by omega) (by omega)]

theorem utf8DecodeBytesF_irrel :
    ∀ f1 (s : List Nat) f2, s.length ≤ f1 → s.length ≤ f2 →
      utf8DecodeBytesF f1 s = utf8DecodeBytesF f2 s := by
  intro f1
  induction f1 with
  | zero =>
    intro s f2 h1 _
    have hs : s = [] := List.length_eq_zero.mp (Nat.le_zero.mp h1)
    subst hs
    cases f2 <;> rfl
  | succ g ih =>
    intro s f2 h1 h2
    cases s with
    | nil => cases f2 <;> rfl
    | cons b0 rest =>
      cases f2 with
      | zero => simp at h2
      | succ g2 =>
        simp at h1 h2
        rcases rest with _ | ⟨b1, _ | ⟨b2, _ | ⟨b3, rest3⟩⟩⟩ <;>
            simp only [utf8DecodeBytesF] <;> split_ifs <;>
          first
            | rfl
            | exact congrArg (List.cons _)
                (ih [b1] g2 (by simpa using h1) (by simpa using h2))
            | exact congrArg (List.cons _)
                (ih [b1, b2] g2 (by simpa using h1) (by simpa using h2))
            | exact congrArg (List.cons _) (ih (b1 :: b2 :: b3 :: rest3) g2 h1 h2)
            | exact congrArg (List.cons _)
                (ih [b2] g2 (by simp at h1 ⊢; omega) (by simp at h2 ⊢; omega))
            | exact congrArg (List.cons _)
                (ih (b2 :: b3 :: rest3) g2 (by simp at h1 ⊢; omega) (by simp at h2 ⊢; omega))
            | exact congrArg (List.cons _)
                (ih (b3 :: rest3) g2 (by simp at h1 ⊢; omega) (by simp at h2 ⊢; omega))
            | exact congrArg (List.cons _)
                (ih rest3 g2 (by simp at h1; omega) (by simp at h2; omega))

/-! decoder step equations for valid byte sequences, and the UTF-8 round trip -/

theorem utf8DecodeBytes_one {b0 : Nat} (h : b0 < 128) (bs : List Nat) :
    utf8DecodeBytes (b0 :: bs) = Char.ofNat b0 :: utf8DecodeBytes bs := by
  show utf8DecodeBytesF (bs.length + 1) _ = _
  simp only [utf8DecodeBytesF, if_pos h]
  rfl

theorem utf8DecodeBytes_two {b0 b1 : Nat} (h0 : 194 ≤ b0 ∧ b0 < 224)
    (h1 : 128 ≤ b1 ∧ b1 < 192) (bs : List Nat) :
    utf8DecodeBytes (b0 :: b1 :: bs) =
      Char.ofNat ((b0 - 192) * 64 + (b1 - 128)) :: utf8DecodeBytes bs := by
  show utf8DecodeBytesF (bs.length + 1 + 1) _ = _
  simp only [utf8DecodeBytesF]
  rw [if_neg (by omega), if_pos h0, if_pos h1]
  exact congrArg _ (utf8DecodeBytesF_irrel (bs.length + 1) bs bs.length (by omega) (by omega))

theorem utf8DecodeBytes_three {b0 b1 b2 : Nat} (h0 : 224 ≤ b0 ∧ b0 < 240)
    (h1 : 128 ≤ b1 ∧ b1 < 192) (h2 : 128 ≤ b2 ∧ b2 < 192)
    (hov : b0 = 224 → 160 ≤ b1) (hsur : b0 = 237 → b1 < 160) (bs : List Nat) :
    utf8DecodeBytes (b0 :: b1 :: b2 :: bs) =
      Char.ofNat ((b0 - 224) * 4096 + (b1 - 128) * 64 + (b2 - 128)) :: utf8DecodeBytes bs := by
  show utf8DecodeBytesF (bs.length + 1 + 1 + 1) _ = _
  simp only [utf8DecodeBytesF]
  rw [if_neg (by omega), if_neg (by omega), if_pos h0, if_pos ⟨h1, h2, hov, hsur⟩]
  exact congrArg _ (utf8DecodeBytesF_irrel (bs.length + 2) bs bs.length (by omega) (by omega))

theorem utf8DecodeBytes_four {b0 b1 b2 b3 : Nat} (h0 : 240 ≤ b0 ∧ b0 < 245)
    (h1 : 128 ≤ b1 ∧ b1 < 192) (h2 : 128 ≤ b2 ∧ b2 < 192) (h3 : 128 ≤ b3 ∧ b3 < 192)
    (hov : b0 = 240 → 144 ≤ b1) (hbig : b0 = 244 → b1 < 144) (bs : List Nat) :
    utf8DecodeBytes (b0 :: b1 :: b2 :: b3 :: bs) =
      Char.ofNat ((b0 - 240) * 262144 + (b1 - 128) * 4096 + (b2 - 128) * 64 + (b3 - 128)) ::
        utf8DecodeBytes bs := by
  show utf8DecodeBytesF (bs.length + 1 + 1 + 1 + 1) _ = _
  simp only [utf8DecodeBytesF]
  rw [if_neg (by omega), if_neg (by omega), if_neg (by omega), if_pos h0,
    if_pos ⟨h1, h2, h3, hov, hbig⟩]
  exact congrArg _ (utf8DecodeBytesF_irrel (bs.length + 3) bs bs.length (by omega) (by omega))

theorem utf8Decode_encode (c : Char) (bs : List Nat) :
    utf8DecodeBytes (utf8EncodeChar c ++ bs) = c :: utf8DecodeBytes bs := by
  have hv := charValidBounds c
  by_cases r1 : c.toNat < 128
  · have he : utf8EncodeChar c = [c.toNat] := by unfold utf8EncodeChar; rw [if_pos r1]
    rw [he, List.cons_append, List.nil_append, utf8DecodeBytes_one r1, Char.ofNat_toNat]
  · by_cases r2 : c.toNat < 2048
    · have he : utf8EncodeChar c = [192 + c.toNat / 64, 128 + c.toNat % 64] := by
        unfold utf8EncodeChar; rw [if_neg r1, if_pos r2]
      rw [he]
      show utf8DecodeBytes (_ :: _ :: bs) = _
      rw [utf8DecodeBytes_two (by omega) (by omega)]
      have hval : (192 + c.toNat / 64 - 192) * 64 + (128 + c.toNat % 64 - 128) = c.toNat := by
        omega
      rw [hval, Char.ofNat_toNat]
    · by_cases r3 : c.toNat < 65536
      · have he : utf8EncodeChar c =
            [224 + c.toNat / 4096, 128 + c.toNat / 64 % 64, 128 + c.toNat % 64] := by
          unfold utf8EncodeChar; rw [if_neg r1, if_neg r2, if_pos r3]
        rw [he]
        show utf8DecodeBytes (_ :: _ :: _ :: bs) = _
        rw [utf8DecodeBytes_three (by omega) (by omega) (by omega) (by omega) (by omega)]
        have hval : (224 + c.toNat / 4096 - 224) * 4096 + (128 + c.toNat / 64 % 64 - 128) * 64 +
            (128 + c.toNat % 64 - 128) = c.toNat := by omega
        rw [hval, Char.ofNat_toNat]
      · have he : utf8EncodeChar c =
            [240 + c.toNat / 262144, 128 + c.toNat / 4096 % 64, 128 + c.toNat / 64 % 64,
             128 + c.toNat % 64] := by
          unfold utf8EncodeChar; rw [if_neg r1, if_neg r2, if_neg r3]
        rw [he]
        show utf8DecodeBytes (_ :: _ :: _ :: _ :: bs) = _
        rw [utf8DecodeBytes_four (by omega) (by omega) (by omega) (by omega) (by omega)
          (by omega)]
        have hval : (240 + c.toNat / 262144 - 240) * 262144 +
            (128 + c.toNat / 4096 % 64 - 128) * 4096 + (128 + c.toNat / 64 % 64 - 128) * 64 +
            (128 + c.toNat % 64 - 128) = c.toNat := by omega
        rw [hval, Char.ofNat_toNat]

theorem utf8Decode_cmapEncode (s : Str) : utf8DecodeBytes (cmap utf8EncodeChar s) = s := by
  induction s with
  | nil => rfl
  | cons c s ih => rw [cmap, utf8Decode_encode, ih]

/-! percent decoding inverts quoting at the byte level -/

theorem pctBytes_cmapEscape (bs : List Nat) (hbs : ∀ b ∈ bs, b < 256) (t : List Char) :
    pctBytes (cmap pctEscape bs ++ t) = bs ++ pctBytes t := by
  induction bs with
  | nil => simp [cmap]
  | cons b bs ih =>
    have hb : b < 256 := hbs b (by simp)
    have hdiv : b / 16 < 16 := by omega
    have hmod : b % 16 < 16 := by omega
    have hrec : b / 16 * 16 + b % 16 = b := by omega
    rw [cmap, pctEscape, List.append_assoc]
    show pctBytes ('%' :: hexUpper (b / 16) :: hexUpper (b % 16) :: _) = _
    rw [pctBytes_escape (hexUpperFacts _ hdiv).2.1 (hexUpperFacts _ hmod).2.1,
      (hexUpperFacts _ hdiv).2.2.1, (hexUpperFacts _ hmod).2.2.1]
    show (b / 16 * 16 + b % 16) :: pctBytes (cmap pctEscape bs ++ t) = b :: bs ++ pctBytes t
    rw [ih fun x hx => hbs x (by simp [hx]), hrec, List.cons_append]

theorem pctBytes_quote (s : Str) : pctBytes (quote s) = cmap utf8EncodeChar s := by
  induction s with
  | nil => rfl
  | cons c s ih =>
    rw [quote_cons]
    by_cases hs : quoteSafe c = true
    · have hc : c ≠ '%' := by
        intro hh
        subst hh
        exact absurd hs (by decide)
      have he : utf8EncodeChar c = [c.toNat] := by
        unfold utf8EncodeChar; rw [if_pos (quoteSafe_toNat hs).1]
      have hq : quoteChar c = [c] := by unfold quoteChar; rw [if_pos hs]
      rw [hq, List.cons_append, List.nil_append, pctBytes_cons_safe hc, ih, cmap, he,
        List.cons_append, List.nil_append]
    · have hq : quoteChar c = cmap pctEscape (utf8EncodeChar c) := by
        unfold quoteChar; rw [if_neg hs]
      rw [hq, pctBytes_cmapEscape _ (utf8EncodeChar_lt256 c) _, ih, cmap]

/-! the value decoding of parse_qsl inverts quote -/

theorem map_self {f : α → α} : ∀ l : List α, (∀ c ∈ l, f c = c) → l.map f = l := by
  intro l h
  induction l with
  | nil => rfl
  | cons a l ih => simp only [List.map_cons, h a (by simp), ih fun b hb => h b (by simp [hb])]

theorem plusToSpace_quote (s : Str) : plusToSpace (quote s) = quote s := by
  refine map_self _ fun c hc => ?_
  have hp : (c == '+') = false := by
    have h43 := (mem_quote_toNat hc).2.2.2.2.2.2.1
    simp only [beq_eq_false_iff_ne, ne_eq]
    intro hh
    subst hh
    exact h43 (by decide)
  rw [hp]
  rfl

theorem unquote_ascii (s : Str) (h : ∀ c ∈ s, c.toNat < 128) :
    unquote s = utf8DecodeBytes (pctBytes s) := by
  cases s with
  | nil => rfl
  | cons c rest =>
    show unquoteF (rest.length + 1) (c :: rest) = _
    simp only [unquoteF]
    rw [if_pos (h c (by simp))]
    have ht : rest.takeWhile (fun d => d.toNat < 128) = rest :=
      List.takeWhile_eq_self_iff.mpr fun d hd => by simpa using h d (by simp [hd])
    have hd : rest.dropWhile (fun d => d.toNat < 128) = [] :=
      List.dropWhile_eq_nil_iff.mpr fun d hd => by simpa using h d (by simp [hd])
    rw [ht, hd]
    show _ ++ unquoteF rest.length [] = _
    cases hr : rest.length <;> simp [unquoteF]

theorem unquote_quote (s : Str) : unquote (quote s) = s := by
  rw [unquote_ascii _ fun c hc => (mem_quote_toNat hc).1, pctBytes_quote,
    utf8Decode_cmapEncode]

theorem qslDecode_quote (s : Str) : qslDecode (quote s) = s := by
  unfold qslDecode
  rw [plusToSpace_quote, unquote_quote]

theorem quoteChar_ne_nil (c : Char) : quoteChar c ≠ [] := by
  unfold quoteChar
  split_ifs with hs
  · simp
  · unfold utf8EncodeChar
    split_ifs <;> simp [cmap, pctEscape]

theorem quote_ne_nil {v : Str} (hv : v ≠ []) : quote v ≠ [] := by
  cases v with
  | nil => exact absurd rfl hv
  | cons c s =>
    rw [quote_cons]
    intro hh
    exact quoteChar_ne_nil c (List.append_eq_nil.mp hh).1

/-! splitting and joining lemmas -/

theorem splitOnChar_not_mem {sep : Char} : ∀ {p : Str}, sep ∉ p → splitOnChar sep p = [p] := by
  intro p
  induction p with
  | nil => intro _; rfl
  | cons c rest ih =>
    intro hp
    simp only [List.mem_cons, not_or] at hp
    have hcn : ¬((c == sep) = true) := by
      simp only [beq_iff_eq]
      exact fun hh => hp.1 hh.symm
    simp only [splitOnChar]
    rw [if_neg hcn, ih hp.2]

theorem splitOnChar_append {sep : Char} :
    ∀ {p : Str}, sep ∉ p → ∀ t, splitOnChar sep (p ++ sep :: t) = p :: splitOnChar sep t := by
  intro p
  induction p with
  | nil =>
    intro _ t
    simp only [List.nil_append, splitOnChar]
    rw [if_pos (beq_self_eq_true sep)]
  | cons c rest ih =>
    intro hp t
    simp only [List.mem_cons, not_or] at hp
    have hcn : ¬((c == sep) = true) := by
      simp only [beq_iff_eq]
      exact fun hh => hp.1 hh.symm
    rw [show (c :: rest) ++ sep :: t = c :: (rest ++ sep :: t) from rfl]
    simp only [splitOnChar]
    rw [if_neg hcn, ih hp.2]

theorem splitFirst_not_mem {sep : Char} : ∀ {p : Str}, sep ∉ p → splitFirst sep p = none := by
  intro p
  induction p with
  | nil => intro _; rfl
  | cons c rest ih =>
    intro hp
    simp only [List.mem_cons, not_or] at hp
    have hcn : ¬((c == sep) = true) := by
      simp only [beq_iff_eq]
      exact fun hh => hp.1 hh.symm
    simp only [splitFirst]
    rw [if_neg hcn, ih hp.2]
    rfl

theorem splitFirst_append {sep : Char} :
    ∀ {a : Str}, sep ∉ a → ∀ b, splitFirst sep (a ++ sep :: b) = some (a, b) := by
  intro a
  induction a with
  | nil =>
    intro _ b
    simp only [List.nil_append, splitFirst]
    rw [if_pos (beq_self_eq_true sep)]
  | cons c rest ih =>
    intro ha b
    simp only [List.mem_cons, not_or] at ha
    have hcn : ¬((c == sep) = true) := by
      simp only [beq_iff_eq]
      exact fun hh => ha.1 hh.symm
    rw [show (c :: rest) ++ sep :: b = c :: (rest ++ sep :: b) from rfl]
    simp only [splitFirst]
    rw [if_neg hcn, ih ha.2]
    rfl

theorem mem_joinAmp {c : Char} :
    ∀ {parts : List Str}, c ∈ joinAmp parts → c = '&' ∨ ∃ p ∈ parts, c ∈ p := by
  intro parts
  induction parts with
  | nil => intro h; simp [joinAmp] at h
  | cons p rest ih =>
    intro h
    cases rest with
    | nil =>
      rw [joinAmp] at h
      exact Or.inr ⟨p, by simp, h⟩
    | cons q rest2 =>
      rw [joinAmp] at h
      rcases List.mem_append.mp h with h | h
      · exact Or.inr ⟨p, by simp, h⟩
      · rcases List.mem_cons.mp h with rfl | h
        · exact Or.inl rfl
        · rcases ih h with h | ⟨p2, hp2, hc⟩
          · exact Or.inl h
          · exact Or.inr ⟨p2, by simp [List.mem_cons.mp hp2], hc⟩

/-! dictionary building lemmas -/

theorem foldl_dictInsert_fresh :
    ∀ (xs : List (Str × Str)) (d : List (Str × Str)),
      (∀ kv ∈ xs, hasKey d kv.1 = false) → (xs.map Prod.fst).Nodup →
      xs.foldl (fun d kv => dictInsert d kv.1 kv.2) d = d ++ xs := by
  intro xs
  induction xs with
  | nil => intro d _ _; simp
  | cons kv xs ih =>
    intro d hfresh hnodup
    simp only [List.map_cons, List.nodup_cons] at hnodup
    simp only [List.foldl_cons]
    have hins : dictInsert d kv.1 kv.2 = d ++ [kv] := by
      unfold dictInsert
      rw [if_neg (by simp [hfresh kv (by simp)])]
    rw [hins, ih (d ++ [kv]) ?_ hnodup.2]
    · simp
    · intro kv2 hkv2
      have h1 : hasKey d kv2.1 = false := hfresh kv2 (by simp [hkv2])
      have h2 : kv2.1 ≠ kv.1 := by
        intro hh
        exact hnodup.1 (hh ▸ List.mem_map_of_mem Prod.fst hkv2)
      simp only [hasKey, List.any_append, List.any_cons, List.any_nil, Bool.or_false] at h1 ⊢
      simp [h1, beq_eq_false_iff_ne, Ne.symm h2]

theorem foldl_qsInsert_fresh :
    ∀ (xs : List (Str × Str)) (d : List (Str × List Str)),
      (∀ kv ∈ xs, hasKeyQ d kv.1 = false) → (xs.map Prod.fst).Nodup →
      xs.foldl (fun d kv => qsInsert d kv.1 kv.2) d =
        d ++ xs.map fun kv => (kv.1, [kv.2]) := by
  intro xs
  induction xs with
  | nil => intro d _ _; simp
  | cons kv xs ih =>
    intro d hfresh hnodup
    simp only [List.map_cons, List.nodup_cons] at hnodup
    simp only [List.foldl_cons]
    have hins : qsInsert d kv.1 kv.2 = d ++ [(kv.1, [kv.2])] := by
      unfold qsInsert
      rw [if_neg (by simp [hfresh kv (by simp)])]
    rw [hins, ih (d ++ [(kv.1, [kv.2])]) ?_ hnodup.2]
    · simp
    · intro kv2 hkv2
      have h1 : hasKeyQ d kv2.1 = false := hfresh kv2 (by simp [hkv2])
      have h2 : kv2.1 ≠ kv.1 := by
        intro hh
        exact hnodup.1 (hh ▸ List.mem_map_of_mem Prod.fst hkv2)
      simp only [hasKeyQ, List.any_append, List.any_cons, List.any_nil, Bool.or_false] at h1 ⊢
      simp [h1, beq_eq_false_iff_ne, Ne.symm h2]

/-! facts about the nine recognized keys, established by computation -/

theorem shortKey_facts : ∀ k ∈ semanticNames,
    toSemanticName (toShortKey k) = k ∧
    qslDecode (toShortKey k) = toShortKey k ∧
    ∀ c ∈ toShortKey k, c.toNat < 128 ∧ c.toNat ≠ 38 ∧ c.toNat ≠ 61 ∧ c.toNat ≠ 63 ∧
      c.toNat ≠ 35 ∧ c.toNat ≠ 9 ∧ c.toNat ≠ 13 ∧ c.toNat ≠ 10 := by decide

theorem toShortKey_injOn : ∀ a ∈ semanticNames, ∀ b ∈ semanticNames,
    toShortKey a = toShortKey b → a = b := by decide

/-! the serialized text of a record with recognized keys parses back -/

theorem mem_queryPart {kv : Str × Str} (hk : kv.1 ∈ semanticNames) {c : Char}
    (hc : c ∈ queryPart kv) :
    c.toNat ≠ 38 ∧ c.toNat ≠ 35 ∧ c.toNat ≠ 9 ∧ c.toNat ≠ 13 ∧ c.toNat ≠ 10 := by
  unfold queryPart at hc
  rcases List.mem_append.mp hc with h | h
  · have := (shortKey_facts kv.1 hk).2.2 c h
    omega
  · rcases List.mem_cons.mp h with rfl | h
    · decide
    · have := mem_quote_toNat h
      omega

theorem amp_not_mem_queryPart {kv : Str × Str} (hk : kv.1 ∈ semanticNames) :
    '&' ∉ queryPart kv := fun hc => (mem_queryPart hk hc).1 rfl

theorem eq_not_mem_shortKey {k : Str} (hk : k ∈ semanticNames) : '=' ∉ toShortKey k :=
  fun hc => ((shortKey_facts k hk).2.2 _ hc).2.2.1 rfl

theorem qslPair_queryPart (kv : Str × Str) (hk : kv.1 ∈ semanticNames) (hv : kv.2 ≠ []) :
    qslPair (queryPart kv) = some (toShortKey kv.1, kv.2) := by
  unfold qslPair
  rw [show queryPart kv = toShortKey kv.1 ++ '=' :: quote kv.2 from rfl,
    splitFirst_append (eq_not_mem_shortKey hk)]
  show (if quote kv.2 = [] then none
    else some (qslDecode (toShortKey kv.1), qslDecode (quote kv.2))) = _
  rw [if_neg (quote_ne_nil hv), (shortKey_facts kv.1 hk).2.1, qslDecode_quote]

theorem parse_qsl_single (kv : Str × Str) (hk : kv.1 ∈ semanticNames) (hv : kv.2 ≠ []) :
    parse_qsl (queryPart kv) = [(toShortKey kv.1, kv.2)] := by
  unfold parse_qsl
  rw [splitOnChar_not_mem (amp_not_mem_queryPart hk), List.filterMap_cons,
    qslPair_queryPart kv hk hv]
  rfl

theorem parse_qsl_cons (kv : Str × Str) (hk : kv.1 ∈ semanticNames) (hv : kv.2 ≠ [])
    (t : Str) :
    parse_qsl (queryPart kv ++ '&' :: t) = (toShortKey kv.1, kv.2) :: parse_qsl t := by
  unfold parse_qsl
  rw [splitOnChar_append (amp_not_mem_queryPart hk), List.filterMap_cons,
    qslPair_queryPart kv hk hv]

theorem parse_qsl_create :
    ∀ r : List (Str × Str), (∀ kv ∈ r, kv.1 ∈ semanticNames) → (∀ kv ∈ r, kv.2 ≠ []) →
      parse_qsl (joinAmp (r.map queryPart)) = r.map fun kv => (toShortKey kv.1, kv.2) := by
  intro r
  induction r with
  | nil => intro _ _; rfl
  | cons kv rest ih =>
    intro hkeys hvals
    cases rest with
    | nil =>
      show parse_qsl (joinAmp [queryPart kv]) = _
      rw [joinAmp, parse_qsl_single kv (hkeys kv (by simp)) (hvals kv (by simp))]
      rfl
    | cons kv2 rest2 =>
      show parse_qsl (joinAmp (queryPart kv :: queryPart kv2 :: rest2.map queryPart)) = _
      rw [joinAmp, parse_qsl_cons kv (hkeys kv (by simp)) (hvals kv (by simp)),
        show (queryPart kv2 :: rest2.map queryPart) = (kv2 :: rest2).map queryPart from rfl,
        ih (fun e he => hkeys e (by simp [List.mem_cons.mp he]))
          (fun e he => hvals e (by simp [List.mem_cons.mp he]))]
      rfl

theorem foldlCongrMem (f g : β → α → β) :
    ∀ (l : List α) (init : β), (∀ b, ∀ a ∈ l, f b a = g b a) →
      l.foldl f init = l.foldl g init := by
  intro l
  induction l with
  | nil => intro _ _; rfl
  | cons a l ih =>
    intro init h
    simp only [List.foldl_cons]
    rw [h init a (by simp)]
    exact ih _ fun b x hx => h b x (by simp [hx])

theorem recordOfQuery_create (r : List (Str × Str))
    (hkeys : ∀ kv ∈ r, kv.1 ∈ semanticNames)
    (hnodup : (r.map Prod.fst).Nodup)
    (hvals : ∀ kv ∈ r, kv.2 ≠ []) :
    recordOfQuery (joinAmp (r.map queryPart)) = r := by
  have hshortNodup : ((r.map fun kv => (toShortKey kv.1, kv.2)).map Prod.fst).Nodup := by
    rw [List.map_map]
    have hmapmap : (r.map fun kv => toShortKey kv.1) = (r.map Prod.fst).map toShortKey := by
      rw [List.map_map]
      rfl
    show (r.map fun kv => toShortKey kv.1).Nodup
    rw [hmapmap]
    refine List.Nodup.map_on ?_ hnodup
    intro x hx y hy hxy
    rcases List.mem_map.mp hx with ⟨kx, hkx, rfl⟩
    rcases List.mem_map.mp hy with ⟨ky, hky, rfl⟩
    exact toShortKey_injOn _ (hkeys kx hkx) _ (hkeys ky hky) hxy
  have hqs : parse_qs (joinAmp (r.map queryPart)) =
      (r.map fun kv => (toShortKey kv.1, kv.2)).map fun kv => (kv.1, [kv.2]) := by
    unfold parse_qs
    rw [parse_qsl_create r hkeys hvals]
    rw [foldl_qsInsert_fresh _ [] (fun kv _ => by simp [hasKeyQ]) hshortNodup]
    rfl
  unfold recordOfQuery
  rw [hqs, List.map_map, List.foldl_map]
  refine (foldlCongrMem _ (fun d kv => dictInsert d kv.1 kv.2) r [] ?_).trans ?_
  · intro b a ha
    show dictInsert b (toSemanticName (toShortKey a.1)) ([a.2].headD []) = dictInsert b a.1 a.2
    rw [(shortKey_facts a.1 (hkeys a ha)).1]
    rfl
  · rw [foldl_dictInsert_fresh r [] (fun kv _ => by simp [hasKey]) hnodup]
    rfl

theorem urlsplitQueryUpi_payHead (J : Str)
    (hctl : ∀ c ∈ J, c.toNat ≠ 9 ∧ c.toNat ≠ 13 ∧ c.toNat ≠ 10)
    (hhash : ∀ c ∈ J, c.toNat ≠ 35) :
    urlsplitQueryUpi (payHead ++ J) = .ok J := by
  have h2 : stripCtl J = J := by
    refine List.filter_eq_self.mpr fun c hc => ?_
    have := hctl c hc
    simp only [bne_iff_ne, Bool.and_eq_true, ne_eq]
    exact ⟨⟨this.1, this.2.1⟩, this.2.2⟩
  have h3 : J.takeWhile (fun c => c != '#') = J := by
    refine List.takeWhile_eq_self_iff.mpr fun c hc => ?_
    have := hhash c hc
    simp only [bne_iff_ne, ne_eq]
    intro hh
    rw [hh] at this
    exact this rfl
  have hstrip : stripCtl (payHead ++ J) = payHead ++ J := by
    rw [show stripCtl (payHead ++ J) = payHead ++ stripCtl J from rfl, h2]
  simp only [urlsplitQueryUpi]
  rw [hstrip,
    show (payHead ++ J).drop 6 = 'p' :: 'a' :: 'y' :: '?' :: J from rfl,
    show ('p' :: 'a' :: 'y' :: '?' :: J).takeWhile notNetlocEnd = ['p', 'a', 'y'] from rfl,
    show ('p' :: 'a' :: 'y' :: '?' :: J).dropWhile notNetlocEnd = '?' :: J from rfl,
    if_neg (by decide),
    show ('?' :: J).takeWhile (fun c => c != '#') = '?' :: J.takeWhile (fun c => c != '#')
      from rfl,
    h3,
    show afterFirst '?' ('?' :: J) = J from rfl]

theorem mem_J_facts (r : List (Str × Str)) (hkeys : ∀ kv ∈ r, kv.1 ∈ semanticNames)
    {c : Char} (hc : c ∈ joinAmp (r.map queryPart)) :
    c.toNat ≠ 35 ∧ c.toNat ≠ 9 ∧ c.toNat ≠ 13 ∧ c.toNat ≠ 10 := by
  rcases mem_joinAmp hc with rfl | ⟨p, hp, hcp⟩
  · decide
  · rcases List.mem_map.mp hp with ⟨kv, hkv, rfl⟩
    have := mem_queryPart (hkeys kv hkv) hcp
    omega

/-- the round trip at the heart of the codec: parsing the serialized form of a
    record whose keys are recognized semantic names and whose values are
    non-empty reproduces the record -/
theorem parse_create (r : List (Str × Str))
    (hkeys : ∀ kv ∈ r, kv.1 ∈ semanticNames)
    (hnodup : (r.map Prod.fst).Nodup)
    (hvals : ∀ kv ∈ r, kv.2 ≠ []) :
    QRHandler.parse_upi_string (QRHandler.create_upi_string r) = r := by
  have hquery : urlsplitQueryUpi (payHead ++ joinAmp (r.map queryPart)) =
      .ok (joinAmp (r.map queryPart)) :=
    urlsplitQueryUpi_payHead _ (fun c hc => (mem_J_facts r hkeys hc).2)
      (fun c hc => (mem_J_facts r hkeys hc).1)
  show QRHandler.parse_upi_string (payHead ++ joinAmp (r.map queryPart)) = r
  unfold QRHandler.parse_upi_string
  rw [if_pos (show strStarts schemeHead (payHead ++ joinAmp (r.map queryPart)) = true
    from rfl), hquery]
  exact recordOfQuery_create r hkeys hnodup hvals

/-! lookup characterization of the parse_qs dictionary: the value list of a
    key collects all its occurrences in order, so the value the parser selects
    with index zero is the value of the first occurrence -/
theorem lookupQ_map_update (k1 : Str) (v1 : Str) (k : Str) :
    ∀ d : List (Str × List Str),
      lookupQ (d.map fun e => if e.1 == k1 then (e.1, e.2 ++ [v1]) else e) k =
        if k = k1 then (lookupQ d k).map (fun vs => vs ++ [v1]) else lookupQ d k := by
  intro d
  induction d with
  | nil => by_cases hk : k = k1 <;> simp [lookupQ, hk]
  | cons e d ih =>
    by_cases h1 : e.1 = k1 <;> by_cases h2 : e.1 = k <;> by_cases hk : k = k1
    · subst hk
      simp [lookupQ, beq_iff_eq, h1, h2]
    · exact absurd (h2.symm.trans h1) hk
    · exact absurd (h1.trans hk.symm) h2
    · simp only [beq_iff_eq] at ih
      simp [lookupQ, beq_iff_eq, h1, h2, hk, Ne.symm hk, ih]
    · exact absurd (h2.trans hk) h1
    · simp [lookupQ, beq_iff_eq, h1, h2, hk]
    · subst hk
      simp only [beq_iff_eq] at ih
      simp [lookupQ, beq_iff_eq, h1, h2, ih]
    · simp only [beq_iff_eq] at ih
      simp [lookupQ, beq_iff_eq, h1, h2, hk, ih]

theorem lookupQ_append_single (k1 : Str) (v1 : Str) (k : Str) :
    ∀ d : List (Str × List Str),
      lookupQ (d ++ [(k1, [v1])]) k =
        match lookupQ d k with
        | some vs => some vs
        | none => if k = k1 then some [v1] else none := by
  intro d
  induction d with
  | nil =>
    by_cases hk : k = k1
    · subst hk
      simp [lookupQ]
    · simp [lookupQ, beq_iff_eq, hk, Ne.symm hk]
  | cons e d ih =>
    by_cases h2 : e.1 = k <;> simp [lookupQ, beq_iff_eq, h2, ih]

theorem lookupQ_none_of_hasKeyQ_false {d : List (Str × List Str)} {k : Str}
    (h : hasKeyQ d k = false) : lookupQ d k = none := by
  induction d with
  | nil => rfl
  | cons e d ih =>
    simp only [hasKeyQ, List.any_cons, Bool.or_eq_false_iff] at h
    simp only [lookupQ]
    rw [if_neg (by simp [h.1]), ih h.2]

theorem lookupQ_some_of_hasKeyQ_true {d : List (Str × List Str)} {k : Str}
    (h : hasKeyQ d k = true) : ∃ vs, lookupQ d k = some vs := by
  induction d with
  | nil => simp [hasKeyQ] at h
  | cons e d ih =>
    by_cases h1 : e.1 = k
    · exact ⟨e.2, by simp [lookupQ, h1]⟩
    · simp only [hasKeyQ, List.any_cons, Bool.or_eq_true, beq_iff_eq] at h
      rcases h with h | h
      · exact absurd h h1
      · obtain ⟨vs, hvs⟩ := ih (by simpa [hasKeyQ] using h)
        exact ⟨vs, by simpa [lookupQ, h1] using hvs⟩

theorem lookupQ_qsInsert (d : List (Str × List Str)) (k1 v1 k : Str) :
    lookupQ (qsInsert d k1 v1) k =
      if k = k1 then
        match lookupQ d k1 with
        | some vs => some (vs ++ [v1])
        | none => some [v1]
      else lookupQ d k := by
  unfold qsInsert
  cases hk : hasKeyQ d k1
  · rw [if_neg Bool.false_ne_true, lookupQ_append_single]
    have hnone := lookupQ_none_of_hasKeyQ_false hk
    by_cases h : k = k1
    · subst h
      rw [hnone]
    · cases hl : lookupQ d k <;> simp [h, hl]
  · rw [if_pos rfl, lookupQ_map_update]
    by_cases h : k = k1
    · subst h
      obtain ⟨vs, hvs⟩ := lookupQ_some_of_hasKeyQ_true hk
      rw [hvs]
      rfl
    · rw [if_neg h, if_neg h]

theorem lookupQ_foldl (prs : List (Str × Str)) :
    ∀ (d : List (Str × List Str)) (k : Str),
      lookupQ (prs.foldl (fun d kv => qsInsert d kv.1 kv.2) d) k =
        match lookupQ d k with
        | some vs => some (vs ++ valuesOf k prs)
        | none => if valuesOf k prs = [] then none else some (valuesOf k prs) := by
  induction prs with
  | nil =>
    intro d k
    cases hl : lookupQ d k <;> simp [valuesOf, hl]
  | cons p prs ih =>
    intro d k
    simp only [List.foldl_cons]
    rw [ih, lookupQ_qsInsert]
    have hv : valuesOf k (p :: prs) =
        if p.1 = k then p.2 :: valuesOf k prs else valuesOf k prs := by
      unfold valuesOf
      by_cases h : p.1 = k <;> simp [List.filter_cons, h]
    rw [hv]
    by_cases hk : k = p.1
    · rw [if_pos hk, if_pos hk.symm, hk]
      cases hl : lookupQ d p.1
      · show (if (p.2 :: valuesOf p.1 prs : List Str) = [] then none
          else some (p.2 :: valuesOf p.1 prs)) =
            some ([p.2] ++ valuesOf p.1 prs)
        rw [if_neg (by simp)]
        rfl
      · show some ((_ ++ [p.2]) ++ valuesOf p.1 prs) = some (_ ++ p.2 :: valuesOf p.1 prs)
        rw [List.append_assoc]
        rfl
    · rw [if_neg hk, if_neg (show ¬ p.1 = k from fun hh => hk hh.symm)]

theorem find_values (k : Str) :
    ∀ prs : List (Str × Str),
      ((prs.find? fun p => p.1 == k).map Prod.snd) = (valuesOf k prs).head? := by
  intro prs
  induction prs with
  | nil => rfl
  | cons p prs ih =>
    by_cases h : p.1 = k
    · simp [List.find?_cons, valuesOf, List.filter_cons, h]
    · have hb : (p.1 == k) = false := by simp [beq_iff_eq, h]
      have hval : valuesOf k (p :: prs) = valuesOf k prs := by
        simp [valuesOf, List.filter_cons, hb]
      rw [hval, List.find?_cons, hb]
      exact ih

/-- the value stored by the extraction loop for a raw key is the value of that
    key's first occurrence among the parsed pairs (the code takes index 0 of
    the collected list) -/
theorem parse_qs_first_occurrence (q : Str) (k : Str) :
    ((lookupQ (parse_qs q) k).map fun vs => vs.headD []) =
      ((parse_qsl q).find? fun p => p.1 == k).map Prod.snd := by
  unfold parse_qs
  rw [lookupQ_foldl, find_values]
  show (if valuesOf k (parse_qsl q) = [] then none
    else some (valuesOf k (parse_qsl q))).map (fun vs => vs.headD []) = _
  cases hv : valuesOf k (parse_qsl q) <;> simp [hv]

/-! remaining helpers for the serializer claims -/

theorem toShortKey_amp_eq_free {k : Str} (hamp : '&' ∉ k) (heq : '=' ∉ k) :
    '&' ∉ toShortKey k ∧ '=' ∉ toShortKey k := by
  unfold toShortKey
  split_ifs <;> first
    | exact ⟨by decide, by decide⟩
    | exact ⟨hamp, heq⟩

theorem splitOnChar_joinAmp :
    ∀ parts : List Str, (∀ p ∈ parts, '&' ∉ p) → parts ≠ [] →
      splitOnChar '&' (joinAmp parts) = parts := by
  intro parts
  induction parts with
  | nil => intro _ h; exact absurd rfl h
  | cons p rest ih =>
    intro hparts _
    cases rest with
    | nil =>
      rw [joinAmp]
      exact splitOnChar_not_mem (hparts p (by simp))
    | cons q rest2 =>
      rw [joinAmp, splitOnChar_append (hparts p (by simp)),
        ih (fun x hx => hparts x (by simp [List.mem_cons.mp hx])) (by simp)]

/-! ### Claims -/

/-- C1: for every parameter record whose keys are drawn only from the nine
    recognized semantic field names and whose values are non-empty ASCII
    strings containing none of the reserved characters ampersand, equals,
    question mark, hash and space, parsing the serialized form reproduces the
    record exactly: parse_upi_string (create_upi_string r) = r. -/
theorem c1_parse_serialize_roundtrip (r : List (Str × Str))
    (hkeys : ∀ kv ∈ r, kv.1 ∈ semanticNames)
    (hnodup : (r.map Prod.fst).Nodup)
    (hvals : ∀ kv ∈ r, kv.2 ≠ [] ∧ ∀ c ∈ kv.2, c.toNat < 128 ∧
      c ≠ '&' ∧ c ≠ '=' ∧ c ≠ '?' ∧ c ≠ '#' ∧ c ≠ ' ') :
    QRHandler.parse_upi_string (QRHandler.create_upi_string r) = r :=
  parse_create r hkeys hnodup fun kv hkv => (hvals kv hkv).1

/-- C1 witness: the round trip at a concrete two-field record. -/
theorem c1_witness :
    QRHandler.parse_upi_string (QRHandler.create_upi_string
      [(kPayeeAddress, "shop@upi".data), (kAmount, "100".data)]) =
      [(kPayeeAddress, "shop@upi".data), (kAmount, "100".data)] :=
  c1_parse_serialize_roundtrip _ (by decide) (by decide) (by decide)

/-- C2 counterexample: for the duplicated key am, the parser stores the FIRST
    occurrence's value 1, not the last occurrence's value 2 as the claim
    states. -/
theorem c2_counterexample :
    QRHandler.parse_upi_string "upi://pay?am=1&am=2".data = [(kAmount, ['1'])] ∧
    QRHandler.parse_upi_string "upi://pay?am=1&am=2".data ≠ [(kAmount, ['2'])] := by
  decide

/-- C2 (amended): when the query contains the same raw key more than once, the
    value the parser selects for that key is the value of its FIRST occurrence
    (parse_qs collects all values in order and the extraction loop takes index
    zero), not the last. -/
theorem c2_amended_first_occurrence_wins (q : Str) (k : Str) :
    ((lookupQ (parse_qs q) k).map fun vs => vs.headD []) =
      ((parse_qsl q).find? fun p => p.1 == k).map Prod.snd :=
  parse_qs_first_occurrence q k

/-- C3 counterexample: in qr_handler's decode_and_encode the override merge is
    a plain dict update, so an override with an empty value replaces the field
    with the empty string, and the re-serialized text blanks the amount. -/
theorem c3_counterexample :
    pyUpdate [(kAmount, "100".data)] [(kAmount, [])] = [(kAmount, [])] ∧
    QRHandler.decode_and_encode (some "upi://pay?am=100".data) [(kAmount, [])] =
      .encoded "upi://pay?am=".data := by
  decide

/-- C3 (amended): in app.py's modify operation the override merge does ignore
    entries whose value is empty (and the file key): applying the overrides
    equals plainly updating with only the entries that have a non-file key and
    a non-empty value.  qr_handler's decode_and_encode instead applies a plain
    dict update, which does blank fields (see the counterexample). -/
theorem c3_amended_empty_overrides_ignored (params mods : List (Str × Str)) :
    App.applyMods params mods =
      pyUpdate params (mods.filter fun kv =>
        decide (kv.1 ≠ ['f', 'i', 'l', 'e'] ∧ kv.2 ≠ [])) := by
  induction mods generalizing params with
  | nil => rfl
  | cons kv mods ih =>
    rw [show App.applyMods params (kv :: mods) =
        App.applyMods
          (if kv.1 ≠ ['f', 'i', 'l', 'e'] ∧ kv.2 ≠ [] then dictInsert params kv.1 kv.2
           else params) mods from rfl,
      List.filter_cons]
    by_cases hc : kv.1 ≠ ['f', 'i', 'l', 'e'] ∧ kv.2 ≠ []
    · rw [if_pos hc, if_pos (decide_eq_true hc),
        show pyUpdate params (kv :: mods.filter fun kv =>
            decide (kv.1 ≠ ['f', 'i', 'l', 'e'] ∧ kv.2 ≠ [])) =
          pyUpdate (dictInsert params kv.1 kv.2) (mods.filter fun kv =>
            decide (kv.1 ≠ ['f', 'i', 'l', 'e'] ∧ kv.2 ≠ [])) from rfl]
      exact ih _
    · rw [if_neg hc, if_neg fun hh => hc (of_decide_eq_true hh)]
      exact ih params

/-- C4 counterexample: qr_handler's create_upi_string does not omit a field
    with an empty value; it emits the pair am= with an empty value. -/
theorem c4_counterexample :
    QRHandler.create_upi_string [(kAmount, [])] = "upi://pay?am=".data ∧
    noEmptyPair (("upi://pay?am=".data).drop 10) = false := by
  decide

/-- C4 (amended): app.py's create_upi_string does omit fields with empty
    values: for every record whose keys contain no ampersand and no equals
    sign, no key=value pair of its emitted query has an empty value.
    qr_handler's create_upi_string does not skip them (see the
    counterexample). -/
theorem c4_amended_app_omits_empty (r : List (Str × Str))
    (hk : ∀ kv ∈ r, '&' ∉ kv.1 ∧ '=' ∉ kv.1) :
    noEmptyPair ((App.create_upi_string r).drop 10) = true := by
  have hdrop : (App.create_upi_string r).drop 10 =
      joinAmp ((r.filter fun kv => !kv.2.isEmpty).map queryPart) := rfl
  rw [hdrop]
  have hpfacts : ∀ p ∈ (r.filter fun kv => !kv.2.isEmpty).map queryPart,
      '&' ∉ p ∧ ∃ n v2, splitFirst '=' p = some (n, v2) ∧ v2 ≠ [] := by
    intro p hp
    rcases List.mem_map.mp hp with ⟨kv, hkvf, rfl⟩
    have hkvr := (List.mem_filter.mp hkvf).1
    have hv : kv.2 ≠ [] := by
      have h2 := (List.mem_filter.mp hkvf).2
      simp only [Bool.not_eq_true', List.isEmpty_eq_false_iff_exists_mem] at h2
      rcases h2 with ⟨x, hx⟩
      exact List.ne_nil_of_mem hx
    obtain ⟨hampk, heqk⟩ := toShortKey_amp_eq_free (hk kv hkvr).1 (hk kv hkvr).2
    refine ⟨?_, toShortKey kv.1, quote kv.2, splitFirst_append heqk _, quote_ne_nil hv⟩
    intro hampp
    rcases List.mem_append.mp hampp with hm | hm
    · exact hampk hm
    · rcases List.mem_cons.mp hm with hm | hm
      · exact absurd hm (by decide)
      · exact (mem_quote_toNat hm).2.1 rfl
  by_cases hnil : (r.filter fun kv => !kv.2.isEmpty).map queryPart = []
  · rw [hnil]
    decide
  · unfold noEmptyPair
    rw [splitOnChar_joinAmp _ (fun p hp => (hpfacts p hp).1) hnil, List.all_eq_true]
    intro seg hseg
    obtain ⟨_, n, v2, hsf, hv2⟩ := hpfacts seg hseg
    rw [hsf]
    simpa using hv2

/-- C4 witness: the amended statement at a concrete record with one empty and
    one non-empty field. -/
theorem c4_witness :
    noEmptyPair ((App.create_upi_string [(kAmount, ['5']), (kPayeeName, [])]).drop 10)
      = true :=
  c4_amended_app_omits_empty _ (by decide)

/-- C5 counterexample: qr_handler's decode_and_encode does re-encode a
    non-scheme payload: the raw text hello is passed unchanged to the QR
    encoder and an output image is produced. -/
theorem c5_counterexample :
    QRHandler.decode_and_encode (some "hello".data) [] = .encoded "hello".data := by
  decide

/-- C5 (amended): app.py's modify route refuses a decoded payload that is not
    of the upi scheme with the error Not a UPI QR code and produces no output;
    qr_handler's decode_and_encode instead re-encodes the raw payload
    unchanged (empty payloads take the early False return). -/
theorem c5_amended_only_app_refuses (d : Str) (h : strStarts schemeHead d = false)
    (mods : List (Str × Str)) :
    App.modify d mods = .error "Not a UPI QR code".data ∧
    QRHandler.decode_and_encode (some d) mods =
      (if d = [] then .failed else .encoded d) := by
  constructor
  · unfold App.modify
    rw [if_pos (by simp [h])]
  · unfold QRHandler.decode_and_encode
    by_cases hd : d = [] <;> simp [h, hd]

/-- C5 witness: the amended statement at the concrete non-scheme payload
    hello. -/
theorem c5_witness :
    App.modify "hello".data [] = .error "Not a UPI QR code".data ∧
    QRHandler.decode_and_encode (some "hello".data) [] =
      (if "hello".data = ([] : Str) then .failed else .encoded "hello".data) :=
  c5_amended_only_app_refuses _ (by decide) []

/-- C6: for every input that does not begin with the scheme text upi://, both
    parse functions fail before any further parsing, independent of the rest
    of the content: app.py's returns the error Not a UPI payment string and
    qr_handler's returns the empty record after printing its message. -/
theorem c6_not_this_scheme (s : Str) (h : strStarts schemeHead s = false) :
    App.parse_upi_string s = .error "Not a UPI payment string".data ∧
    QRHandler.parse_upi_string s = [] := by
  unfold App.parse_upi_string QRHandler.parse_upi_string
  rw [if_neg (by simp [h]), if_neg (by simp [h])]
  exact ⟨rfl, rfl⟩

/-- C6 witness: the scheme check at a concrete http URL. -/
theorem c6_witness :
    App.parse_upi_string "http://x".data = .error "Not a UPI payment string".data ∧
    QRHandler.parse_upi_string "http://x".data = [] :=
  c6_not_this_scheme _ (by decide)

/-- C7 counterexample: a query pair with no equals sign is silently dropped
    by parse_qs, so the key flag does NOT appear in the record with an empty
    value as the claim states; no error is reported. -/
theorem c7_counterexample :
    QRHandler.parse_upi_string "upi://pay?pa=x&flag".data = [(kPayeeAddress, ['x'])] ∧
    lookupRec (QRHandler.parse_upi_string "upi://pay?pa=x&flag".data) "flag".data =
      none := by
  decide

/-- C7 (amended): a query field with no equals sign contributes nothing to the
    parse: parse_qsl of a query beginning with such a field equals parse_qsl
    of the rest, and of such a field alone is empty; the field is dropped, not
    stored with an empty value, and no error is reported. -/
theorem c7_amended_bare_key_dropped (nv : Str) (h1 : '&' ∉ nv)
    (h2 : splitFirst '=' nv = none) (t : Str) :
    parse_qsl (nv ++ '&' :: t) = parse_qsl t ∧ parse_qsl nv = [] := by
  have hpair : qslPair nv = none := by
    unfold qslPair
    rw [h2]
  constructor
  · unfold parse_qsl
    rw [splitOnChar_append h1, List.filterMap_cons, hpair]
  · unfold parse_qsl
    rw [splitOnChar_not_mem h1, List.filterMap_cons, hpair]
    rfl

/-- C7 witness: the amended statement at the concrete bare key flag. -/
theorem c7_witness :
    parse_qsl ("flag".data ++ '&' :: "pa=x".data) = parse_qsl "pa=x".data ∧
    parse_qsl "flag".data = [] :=
  c7_amended_bare_key_dropped _ (by decide) (by decide) _

/-- C8: for every value string containing an ampersand, an equals sign or a
    space, decoding the encoded value recovers the original: the parse_qsl
    value decoding (plus-to-space then unquote) inverts quote. -/
theorem c8_value_roundtrip (v : Str) (_h : '&' ∈ v ∨ '=' ∈ v ∨ ' ' ∈ v) :
    qslDecode (quote v) = v :=
  qslDecode_quote v

/-- C8 witness: the round trip at a concrete value containing all three
    characters. -/
theorem c8_witness :
    ('&' ∈ "a b&c=d".data ∨ '=' ∈ "a b&c=d".data ∨ ' ' ∈ "a b&c=d".data) ∧
    qslDecode (quote "a b&c=d".data) = "a b&c=d".data :=
  ⟨by decide, c8_value_roundtrip _ (by decide)⟩

/-- C9 counterexample: parse_upi_string does retain state across calls — it
    stores the parsed record in the handler field upi_data, so the state after
    a call differs from the state before it. -/
theorem c9_counterexample :
    (QRHandler.parse_upi_string_st "upi://pay?am=1".data []).2 = [(kAmount, ['1'])] ∧
    (QRHandler.parse_upi_string_st "upi://pay?am=1".data []).2 ≠ [] := by
  decide

/-- C9 (amended): the RESULT of every parse call depends only on its argument
    — it is independent of the retained upi_data state, so repeated or
    interleaved invocations on the same argument return identical results —
    but the call writes the parsed record to the upi_data field, which
    persists across calls (see the counterexample); create_upi_string reads no
    state at all. -/
theorem c9_amended_result_deterministic (s : Str) (st st2 : List (Str × Str)) :
    (QRHandler.parse_upi_string_st s st).1 = (QRHandler.parse_upi_string_st s st2).1 ∧
    (QRHandler.parse_upi_string_st s st).1 = QRHandler.parse_upi_string s := by
  unfold QRHandler.parse_upi_string_st QRHandler.parse_upi_string
  by_cases h : strStarts schemeHead s = true
  · rw [if_pos h, if_pos h, if_pos h]
    cases urlsplitQueryUpi s <;> exact ⟨rfl, rfl⟩
  · rw [if_neg h, if_neg h, if_neg h]
    exact ⟨rfl, rfl⟩

/-- C10: qr_handler's parse_upi_string returns a record for every input and
    never raises: a non-scheme input yields the empty record, and when the
    urlsplit call raises (the modelled ValueError for a bracket of one kind in
    the netloc) the exception is caught and the parameters accumulated so far
    — none, since the loop runs after urlparse — are returned. -/
theorem c10_total_never_raises (s : Str) :
    (strStarts schemeHead s = false → QRHandler.parse_upi_string s = []) ∧
    (∀ e, urlsplitQueryUpi s = .error e → QRHandler.parse_upi_string s = []) := by
  constructor
  · intro h
    unfold QRHandler.parse_upi_string
    rw [if_neg (by simp [h])]
  · intro e he
    unfold QRHandler.parse_upi_string
    by_cases h : strStarts schemeHead s = true
    · rw [if_pos h, he]
    · rw [if_neg h]

/-- C10 witness: a non-scheme input and an input on which urlsplit raises both
    produce the empty record. -/
theorem c10_witness :
    QRHandler.parse_upi_string "hello".data = [] ∧
    QRHandler.parse_upi_string "upi://[x?a=b".data = [] :=
  ⟨(c10_total_never_raises _).1 (by decide),
   (c10_total_never_raises _).2 "Invalid IPv6 URL".data (by decide)⟩

end UPI
